import Mathlib

/-!
Verification development for the Google Scholar Orderer content script.

The definitions below are a shallow embedding of the venue-extraction and
ranking-resolution engine of the source (src/unnamed/part_000, the current
content script, and the two older copies bundled in src/content.js).
Strings are modelled as Lean `String`/`List Char`; the JavaScript regular
expressions used by the source are embedded as explicit character-list
scanners with the same leftmost-match replacement semantics.  JavaScript
`String.prototype.toLowerCase` is modelled by its ASCII case mapping (the
only case mapping the engine's inputs exercise after normalization), and
`String.length` by the character count (the engine only measures normalized
ASCII strings, where UTF-16 units and characters coincide).
-/

namespace GSO

/-- ASCII lowercase letter, by code point (97..122). -/
def isLowerAZ (c : Char) : Bool := 97 ≤ c.toNat && c.toNat ≤ 122

/-- ASCII uppercase letter, by code point (65..90). -/
def isUpperAZ (c : Char) : Bool := 65 ≤ c.toNat && c.toNat ≤ 90

/-- ASCII digit, by code point (48..57). -/
def isDigitC (c : Char) : Bool := 48 ≤ c.toNat && c.toNat ≤ 57

/-- The JavaScript regex class `\s`: space, tab, LF, VT, FF, CR, NBSP and the
Unicode space separators, line/paragraph separators and BOM.  This is also the
character set trimmed by `String.prototype.trim`. -/
def isJsWs (c : Char) : Bool :=
  c.toNat = 32 || c.toNat = 9 || c.toNat = 10 || c.toNat = 13 ||
  c.toNat = 0x0B || c.toNat = 0x0C || c.toNat = 0xA0 || c.toNat = 0x1680 ||
  (0x2000 ≤ c.toNat && c.toNat ≤ 0x200A) ||
  c.toNat = 0x2028 || c.toNat = 0x2029 || c.toNat = 0x202F ||
  c.toNat = 0x205F || c.toNat = 0x3000 || c.toNat = 0xFEFF

/-- JavaScript line terminators (never matched by the regex `.`). -/
def isLineTerm (c : Char) : Bool :=
  c.toNat = 10 || c.toNat = 13 || c.toNat = 0x2028 || c.toNat = 0x2029

/-- `String.prototype.toLowerCase`, restricted to the ASCII case mapping. -/
def jsLower (c : Char) : Char :=
  if isUpperAZ c then Char.ofNat (c.toNat + 32) else c

/-- Characters kept by the regex replacement `replace(/[^a-z0-9\s]/g, '')`
in `normalizeString` (applied after lowercasing). -/
def keepC (c : Char) : Bool := isLowerAZ c || isDigitC c || isJsWs c

/-- Characters that may appear in a fully normalized string: lowercase ASCII
letters, ASCII digits and the plain space. -/
def goodC (c : Char) : Bool := isLowerAZ c || isDigitC c || c = ' '

/-- One step of `replace(/\s+/g, ' ')`: every maximal run of `\s` characters
becomes a single space. -/
def collapseWs : List Char → List Char
  | [] => []
  | c :: cs =>
    match cs with
    | [] => if isJsWs c then [' '] else [c]
    | d :: _ =>
      if isJsWs c && isJsWs d then collapseWs cs
      else (if isJsWs c then ' ' else c) :: collapseWs cs

/-- Drop a trailing run of `\s` characters (the right half of
`String.prototype.trim`). -/
def dropTrailWs : List Char → List Char
  | [] => []
  | c :: cs =>
    match dropTrailWs cs with
    | [] => if isJsWs c then [] else [c]
    | r => c :: r

/-- `String.prototype.trim` on a character list. -/
def trimL (l : List Char) : List Char := dropTrailWs (l.dropWhile isJsWs)

/-- `normalizeString` from the source (part_000 lines 119-125, identical in
both content.js copies): lowercase, delete every character outside
`[a-z0-9\s]`, collapse whitespace runs to single spaces, trim. -/
def normalizeString (str : String) : String :=
  String.mk (trimL (collapseWs ((str.toList.map jsLower).filter keepC)))

/-- `sub.isPrefixOf` at some position of `hay`: JavaScript
`hay.includes(sub)`. -/
def occursIn (sub : List Char) : List Char → Bool
  | [] => sub.isEmpty
  | c :: cs => sub.isPrefixOf (c :: cs) || occursIn sub cs

/-- JavaScript `hay.includes(sub)` on strings. -/
def containsSub (hay sub : String) : Bool := occursIn sub.toList hay.toList

/-- `isFullNameMatch` as defined inside `findRanking` in the current content
script (part_000 lines 311-328): the empty target is refused, equality is
tested next, and only then do the exact-match flag and the length-10 guard
cut off substring matching; the reverse (truncation) containment requires a
detected string of at least 25 characters. -/
def isFullNameMatch (detected target : String) (exactMatch : Bool) : Bool :=
  if target = "" then false
  else if detected = target then true
  else if exactMatch = true ∨ target.length < 10 then false
  else if containsSub detected target then true
  else if 25 ≤ detected.length ∧ containsSub target detected then true
  else false

/-- `isFullNameMatch` as defined in both older copies in content.js
(lines 239-256 and 1277-1294): here the length-10 guard is part of the FIRST
test, so a short target is refused even before the equality test. -/
def isFullNameMatchV1 (detected target : String) (exactMatch : Bool) : Bool :=
  if target = "" ∨ target.length < 10 then false
  else if detected = target then true
  else if exactMatch = true then false
  else if containsSub detected target then true
  else if 25 ≤ detected.length ∧ containsSub target detected then true
  else false

/-! ### Author-line venue extraction (part_000 lines 174-298)

The line is split on the separator regex `/\s+[-–—]\s+/`.  The split is
embedded as a left-to-right scan with an explicit automaton state: `norm`
while copying segment text, `ws` after a whitespace run that may open a
separator, `wsdash` after whitespace-run-plus-dash, and `skip` while
consuming the whitespace run that closes a matched separator.  `acc` and
`pending` hold the current segment and the tentative separator text, both
reversed. -/

/-- Separator dash characters: hyphen-minus, en dash, em dash. -/
def isDashSep (c : Char) : Bool := c = '-' || c = '–' || c = '—'

inductive DashMode where
  | norm | ws | wsdash | skip
  deriving DecidableEq

/-- Scanner for `split(/\s+[-–—]\s+/)`; see the section comment. -/
def splitDashGo : DashMode → List Char → List Char → List Char → List (List Char)
  | DashMode.norm, acc, _, [] => [acc.reverse]
  | DashMode.ws, acc, pending, [] => [(pending ++ acc).reverse]
  | DashMode.wsdash, acc, pending, [] => [(pending ++ acc).reverse]
  | DashMode.skip, acc, _, [] => [acc.reverse]
  | DashMode.norm, acc, _, c :: cs =>
    if isJsWs c then splitDashGo DashMode.ws acc [c] cs
    else splitDashGo DashMode.norm (c :: acc) [] cs
  | DashMode.ws, acc, pending, c :: cs =>
    if isJsWs c then splitDashGo DashMode.ws acc (c :: pending) cs
    else if isDashSep c then splitDashGo DashMode.wsdash acc (c :: pending) cs
    else splitDashGo DashMode.norm (c :: (pending ++ acc)) [] cs
  | DashMode.wsdash, acc, pending, c :: cs =>
    if isJsWs c then acc.reverse :: splitDashGo DashMode.skip [] [] cs
    else splitDashGo DashMode.norm (c :: (pending ++ acc)) [] cs
  | DashMode.skip, _, _, c :: cs =>
    if isJsWs c then splitDashGo DashMode.skip [] [] cs
    else splitDashGo DashMode.norm [c] [] cs

/-- `authorLineText.split(/\s+[-–—]\s+/)`. -/
def splitDashSep (l : List Char) : List (List Char) := splitDashGo DashMode.norm [] [] l

/-- Test `/^\d{4}$/`. -/
def isYearOnly (l : List Char) : Bool := decide (l.length = 4) && l.all isDigitC

/-- The publisher-domain fragments checked with `part.includes(...)`. -/
def domainFragments : List String :=
  [".com", ".org", ".edu", ".net", ".io", ".gov", ".ac.", ".co."]

def hasDomain (part : List Char) : Bool :=
  domainFragments.any (fun d => occursIn d.toList part)

/-- The known standalone publisher names (part_000 line 210). -/
def knownPublishers : List String :=
  ["springer", "elsevier", "wiley", "mdpi", "taylor & francis", "oxford",
   "cambridge", "mit press", "sciencedirect", "arxiv", "ssrn", "researchgate",
   "academia"]

/-- `knownPublishers.some(pub => part.toLowerCase() === pub)`. -/
def isKnownPublisher (part : List Char) : Bool :=
  knownPublishers.any (fun pub => part.map jsLower = pub.toList)

/-- `replace(/^…\s*/, '')`: strip a leading ellipsis and following
whitespace. -/
def stripLeadEllipsis : List Char → List Char
  | '…' :: rest => rest.dropWhile isJsWs
  | l => l

/-- Does `/\s*…\s*(,\s*\d{4}.*)?$/` match the whole suffix starting here?
The pattern is anchored at the end of the string, so a match starting at a
given position spans the entire remaining suffix. -/
def matchEllYearTail (l : List Char) : Bool :=
  match l.dropWhile isJsWs with
  | '…' :: t =>
    (match t.dropWhile isJsWs with
     | [] => true
     | ',' :: t2 =>
       let t3 := t2.dropWhile isJsWs
       decide (4 ≤ t3.length) && (t3.take 4).all isDigitC &&
         (t3.drop 4).all (fun c => !isLineTerm c)
     | _ => false)
  | _ => false

/-- Does `/,\s*\d{4}.*$/` match the whole suffix starting here? -/
def matchCommaYearTail (l : List Char) : Bool :=
  match l with
  | ',' :: t =>
    let t1 := t.dropWhile isJsWs
    decide (4 ≤ t1.length) && (t1.take 4).all isDigitC &&
      (t1.drop 4).all (fun c => !isLineTerm c)
  | _ => false

/-- Does `/\s+\d{4}$/` match the whole suffix starting here? -/
def matchWsYearTail (l : List Char) : Bool :=
  match l with
  | c :: _ =>
    isJsWs c &&
      (let t := l.dropWhile isJsWs
       decide (t.length = 4) && t.all isDigitC)
  | [] => false

/-- Does `/\s+\d+\s*\(\d+\).*$/` match the whole suffix starting here? -/
def matchVolIssueTail (l : List Char) : Bool :=
  match l with
  | c :: _ =>
    isJsWs c &&
      (let t := l.dropWhile isJsWs
       let ds := t.takeWhile isDigitC
       let t2 := t.dropWhile isDigitC
       !ds.isEmpty &&
         (match t2.dropWhile isJsWs with
          | '(' :: t4 =>
            let ds2 := t4.takeWhile isDigitC
            let t5 := t4.dropWhile isDigitC
            !ds2.isEmpty &&
              (match t5 with
               | ')' :: t6 => t6.all (fun c => !isLineTerm c)
               | _ => false)
          | _ => false))
  | [] => false

/-- Does `/,?\s*\d+-\d+\s*$/` match the whole suffix starting here? -/
def matchPagesTail (l : List Char) : Bool :=
  let l1 := match l with | ',' :: t => t | _ => l
  let l2 := l1.dropWhile isJsWs
  let ds := l2.takeWhile isDigitC
  let l3 := l2.dropWhile isDigitC
  !ds.isEmpty &&
    (match l3 with
     | '-' :: l4 =>
       let ds2 := l4.takeWhile isDigitC
       let l5 := l4.dropWhile isDigitC
       !ds2.isEmpty && l5.all isJsWs
     | _ => false)

/-- Does `/,\s*$/` match the whole suffix starting here? -/
def matchTrailCommaTail (l : List Char) : Bool :=
  match l with
  | ',' :: t => t.all isJsWs
  | _ => false

/-- Non-global `replace(pat, '')` for an end-anchored pattern: delete from
the leftmost position whose whole suffix matches the pattern.  `p` decides
whether the pattern matches the entire given suffix. -/
def replScan (p : List Char → Bool) : List Char → List Char
  | [] => []
  | c :: cs => if p (c :: cs) then [] else c :: replScan p cs

/-- Case-insensitive literal-prefix test; `pre` is given lowercased. -/
def ciStarts (l : List Char) (pre : List Char) : Bool :=
  (l.take pre.length).map jsLower = pre

/-- `replace(/^Proceedings of (the\s+)?/i, '')`. -/
def stripProceedings (l : List Char) : List Char :=
  if ciStarts l "proceedings of ".toList then
    let r := l.drop 15
    if ciStarts r "the".toList then
      match r.drop 3 with
      | c :: rest => if isJsWs c then (c :: rest).dropWhile isJsWs else r
      | [] => r
    else r
  else l

/-- The ordinal suffixes `(st|nd|rd|th)`, case-insensitive. -/
def ordSuffixOk (l : List Char) : Bool :=
  ciStarts l "st".toList || ciStarts l "nd".toList ||
  ciStarts l "rd".toList || ciStarts l "th".toList

/-- The part after an organization alternative in
`/^(ACM\/IEEE|IEEE\/ACM|ACM|IEEE)\s+\d+(st|nd|rd|th)\s+/i`:
whitespace, digits, an ordinal suffix and trailing whitespace.  Returns the
remainder when it matches. -/
def orgOrdinalTail (r : List Char) : Option (List Char) :=
  match r with
  | c :: _ =>
    if isJsWs c then
      let r2 := r.dropWhile isJsWs
      let ds := r2.takeWhile isDigitC
      let r3 := r2.dropWhile isDigitC
      if !ds.isEmpty && ordSuffixOk r3 then
        match r3.drop 2 with
        | e :: rest => if isJsWs e then some ((e :: rest).dropWhile isJsWs) else none
        | [] => none
      else none
    else none
  | [] => none

/-- `replace(/^(ACM\/IEEE|IEEE\/ACM|ACM|IEEE)\s+\d+(st|nd|rd|th)\s+/i, '')`,
trying the alternatives in the source's order. -/
def stripOrgOrdinal (l : List Char) : List Char :=
  match (if ciStarts l "acm/ieee".toList then orgOrdinalTail (l.drop 8) else none) with
  | some r => r
  | none =>
    match (if ciStarts l "ieee/acm".toList then orgOrdinalTail (l.drop 8) else none) with
    | some r => r
    | none =>
      match (if ciStarts l "acm".toList then orgOrdinalTail (l.drop 3) else none) with
      | some r => r
      | none =>
        match (if ciStarts l "ieee".toList then orgOrdinalTail (l.drop 4) else none) with
        | some r => r
        | none => l

/-- `replace(/^\d+(st|nd|rd|th)\s+/i, '')`. -/
def stripNumOrdinal (l : List Char) : List Char :=
  let ds := l.takeWhile isDigitC
  let r := l.dropWhile isDigitC
  if !ds.isEmpty && ordSuffixOk r then
    match r.drop 2 with
    | e :: rest => if isJsWs e then (e :: rest).dropWhile isJsWs else l
    | [] => l
  else l

/-- The written-ordinal alternatives of part_000 line 284, lowercased, in the
source's order. -/
def writtenOrdinals : List String :=
  ["first", "second", "third", "fourth", "fifth", "sixth", "seventh",
   "eighth", "ninth", "tenth", "eleventh", "twelfth", "thirteenth",
   "fourteenth", "fifteenth", "sixteenth", "seventeenth", "eighteenth",
   "nineteenth", "twentieth", "twenty-first", "twenty-second",
   "twenty-third", "twenty-fourth", "twenty-fifth", "twenty-sixth",
   "twenty-seventh", "twenty-eighth", "twenty-ninth", "thirtieth",
   "thirty-first", "thirty-second", "thirty-third", "thirty-fourth",
   "thirty-fifth", "thirty-sixth", "thirty-seventh", "thirty-eighth",
   "thirty-ninth", "fortieth", "forty-first", "forty-second", "forty-third",
   "forty-fourth", "forty-fifth"]

/-- Try the written-ordinal alternatives in order; each must be followed by
at least one whitespace character (greedily consumed), as in
`/^(First|...|Forty-Fifth)\s+/i`. -/
def tryWritten (l : List Char) : List String → Option (List Char)
  | [] => none
  | w :: rest =>
    if ciStarts l w.toList then
      match l.drop w.length with
      | e :: r2 =>
        if isJsWs e then some ((e :: r2).dropWhile isJsWs) else tryWritten l rest
      | [] => tryWritten l rest
    else tryWritten l rest

/-- `replace(/^(First|Second|...|Forty-Fifth)\s+/i, '')`. -/
def stripWrittenOrdinal (l : List Char) : List Char :=
  match tryWritten l writtenOrdinals with
  | some r => r
  | none => l

/-- The cleanup rule chain of `extractVenueFromAuthorLine` (part_000 lines
237-285), each rewrite followed by `.trim()` exactly as in the source. -/
def cleanupChain (part0 : List Char) : List Char :=
  let p1 := trimL (stripLeadEllipsis part0)
  let p2 := trimL (replScan matchEllYearTail p1)
  let p3 := trimL (replScan matchCommaYearTail p2)
  let p4 := trimL (replScan matchWsYearTail p3)
  let p5 := trimL (replScan matchVolIssueTail p4)
  let p6 := trimL (replScan matchPagesTail p5)
  let p7 := trimL (replScan matchTrailCommaTail p6)
  let p8 := trimL (stripProceedings p7)
  let p9 := trimL (stripOrgOrdinal p8)
  let p10 := trimL (stripNumOrdinal p9)
  trimL (stripWrittenOrdinal p10)

/-- The candidate loop of `extractVenueFromAuthorLine` over `parts[1..]`. -/
def venueScan : List (List Char) → Option String
  | [] => none
  | p :: rest =>
    let part := trimL p
    if isYearOnly part then venueScan rest
    else if hasDomain part then venueScan rest
    else if isKnownPublisher part then venueScan rest
    else
      let cleaned := cleanupChain part
      if 3 ≤ cleaned.length then some (String.mk cleaned) else venueScan rest

/-- `extractVenueFromAuthorLine` (part_000 lines 174-298; the copy at
content.js lines 102-226 is identical).  The `debugIndex` parameter only
drives console logging and is omitted. -/
def extractVenueFromAuthorLine (authorLineText : String) : Option String :=
  if authorLineText = "" then none
  else
    let parts := splitDashSep authorLineText.toList
    if parts.length < 2 then none
    else venueScan (parts.drop 1)

/-! ### Rankings data model and matcher (part_000 lines 87-97 and 300-430)

The configuration payload's three JavaScript objects are modelled as
insertion-ordered association lists, property access as `List.lookup`, and
`Object.entries` iteration as recursion over the list. -/

/-- One value of the `conferences`/`journals` mappings.  `exactMatch` is
`false` when the JSON field is absent (undefined is falsy). -/
structure VEntry where
  fullName : String
  exactMatch : Bool := false
  core : Option String := none
  sjr : Option String := none
  deriving DecidableEq

/-- The `rankingsData` payload: `{ conferences, journals, aliases }`. -/
structure RankingsData where
  conferences : List (String × VEntry)
  journals : List (String × VEntry)
  aliases : List (String × String)
  deriving DecidableEq

/-- The value assigned to `rankingsData` by the `catch` branch of
`loadRankingsData` (part_000 line 95) when the configuration payload is
missing or malformed: three empty mappings. -/
def emptyRankingsData : RankingsData :=
  { conferences := [], journals := [], aliases := [] }

inductive VenueType where
  | conference | journal
  deriving DecidableEq

/-- A returned match object `{ ...data, key, type }`.  The alias branch of
`findPrefixMatches` pushes `{ key: canonical, ...data }` without a `type`
field, hence the `Option`. -/
structure MatchInfo where
  key : String
  data : VEntry
  vtype : Option VenueType
  deriving DecidableEq

/-- The alias loop of `findRanking` (part_000 lines 331-347): first alias
whose normalized form is at least 10 characters and full-name-matches the
normalized venue, resolved against conferences then journals; an alias whose
canonical key resolves to neither mapping is passed over and the loop
continues. -/
def aliasScan (confs jours : List (String × VEntry)) (normalized : String) :
    List (String × String) → Option MatchInfo
  | [] => none
  | (al, canonical) :: rest =>
    let aliasNorm := normalizeString al
    if 10 ≤ aliasNorm.length ∧ isFullNameMatch normalized aliasNorm false = true then
      match List.lookup canonical confs with
      | some d => some ⟨canonical, d, some VenueType.conference⟩
      | none =>
        match List.lookup canonical jours with
        | some d => some ⟨canonical, d, some VenueType.journal⟩
        | none => aliasScan confs jours normalized rest
    else aliasScan confs jours normalized rest

/-- The conference/journal loops of `findRanking` (part_000 lines 350-367):
first entry whose normalized full name is non-empty and full-name-matches. -/
def entryScan (normalized : String) (vt : VenueType) :
    List (String × VEntry) → Option MatchInfo
  | [] => none
  | (key, data) :: rest =>
    let fullNameNorm := normalizeString data.fullName
    if ¬ fullNameNorm = "" ∧ isFullNameMatch normalized fullNameNorm data.exactMatch = true then
      some ⟨key, data, some vt⟩
    else entryScan normalized vt rest

/-- `findRanking` (part_000 lines 300-371): guard the empty venue name,
normalize, then run the alias pass, the conference pass and the journal pass
in that order, first match wins. -/
def findRanking (rd : RankingsData) (venueName : String) : Option MatchInfo :=
  if venueName = "" then none
  else
    let normalized := normalizeString venueName
    match aliasScan rd.conferences rd.journals normalized rd.aliases with
    | some r => some r
    | none =>
      match entryScan normalized VenueType.conference rd.conferences with
      | some r => some r
      | none => entryScan normalized VenueType.journal rd.journals

/-- The conference/journal sections of `findPrefixMatches` (part_000 lines
391-410): collect entries whose normalized full name is at least as long as
the normalized candidate and starts with it, de-duplicated through the
shared `seenKeys` set.  Returns the collected matches and the updated set. -/
def entriesScanPm (normalized : String) (vt : VenueType) (seen : List String) :
    List (String × VEntry) → List MatchInfo × List String
  | [] => ([], seen)
  | (key, data) :: rest =>
    let fullNameNorm := normalizeString data.fullName
    if normalized.length ≤ fullNameNorm.length ∧
        normalized.toList.isPrefixOf fullNameNorm.toList = true ∧
        seen.contains key = false then
      let out := entriesScanPm normalized vt (key :: seen) rest
      (⟨key, data, some vt⟩ :: out.1, out.2)
    else entriesScanPm normalized vt seen rest

/-- The alias section of `findPrefixMatches` (part_000 lines 413-426): an
alias whose normalized form extends the candidate contributes its canonical
entry, if that key is unseen and resolves in one of the two mappings;
otherwise it is passed over. -/
def aliasScanPm (confs jours : List (String × VEntry)) (normalized : String)
    (seen : List String) : List (String × String) → List MatchInfo
  | [] => []
  | (al, canonical) :: rest =>
    let aliasNorm := normalizeString al
    if normalized.length ≤ aliasNorm.length ∧
        normalized.toList.isPrefixOf aliasNorm.toList = true ∧
        seen.contains canonical = false then
      match List.lookup canonical confs with
      | some data =>
        ⟨canonical, data, none⟩ :: aliasScanPm confs jours normalized (canonical :: seen) rest
      | none =>
        match List.lookup canonical jours with
        | some data =>
          ⟨canonical, data, none⟩ :: aliasScanPm confs jours normalized (canonical :: seen) rest
        | none => aliasScanPm confs jours normalized seen rest
    else aliasScanPm confs jours normalized seen rest

/-- `findPrefixMatches` (part_000 lines 377-430): empty for an empty venue or
a normalized candidate shorter than 15 characters, otherwise conferences,
journals and aliases scanned in that order into one match list. -/
def findPrefixMatches (rd : RankingsData) (truncatedVenue : String) : List MatchInfo :=
  if truncatedVenue = "" then []
  else
    let normalized := normalizeString truncatedVenue
    if normalized.length < 15 then []
    else
      let out1 := entriesScanPm normalized VenueType.conference [] rd.conferences
      let out2 := entriesScanPm normalized VenueType.journal out1.2 rd.journals
      out1.1 ++ out2.1 ++ aliasScanPm rd.conferences rd.journals normalized out2.2 rd.aliases

/-! ### Badge decision policy (part_000 lines 705-764)

For one search result, after the author line has been read: `venueName` is
the (possibly failed) extraction result, `hasTruncation` records whether the
raw author line contained the ellipsis glyph.  The outcome is either an
injected badge carrying a match (the spec's `Accepted`) or the lazy fetch
button (the spec's `NeedsFallback`). -/

inductive BadgeDecision where
  | badge (m : MatchInfo)
  | fetchButton
  deriving DecidableEq

/-- The per-result decision logic of `injectBadges` (part_000 lines 710-763):
failed extraction or no match and no truncation yield the fetch button; an
exact `findRanking` match yields its badge; with truncation and no exact
match, a single prefix match yields its badge and zero or several yield the
fetch button. -/
def badgeDecision (rd : RankingsData) (venueName : Option String)
    (hasTruncation : Bool) : BadgeDecision :=
  match venueName with
  | none => BadgeDecision.fetchButton
  | some v =>
    match findRanking rd v with
    | some r => BadgeDecision.badge r
    | none =>
      if hasTruncation then
        match findPrefixMatches rd v with
        | [m] => BadgeDecision.badge m
        | _ => BadgeDecision.fetchButton
      else BadgeDecision.fetchButton

/-! ### Citation-text (MLA italic span) extractors

The DOM query is abstracted away: the input is the list of `textContent`
strings of the italic elements, in document order. -/

/-- The venue-selection loop of `handleFetchClick` in the current content
script (part_000 lines 616-623): the first italic whose trimmed text is
longer than 3 characters. -/
def selectVenueFromItalics : List String → Option String
  | [] => none
  | t :: rest =>
    let text := String.mk (trimL t.toList)
    if 3 < text.length then some text else selectVenueFromItalics rest

/-- `extractVenueFromMLA` from the older copy (content.js lines 1120-1138):
the first italic whose trimmed text is longer than 2 characters. -/
def extractVenueFromMLA : List String → Option String
  | [] => none
  | t :: rest =>
    let text := String.mk (trimL t.toList)
    if 2 < text.length then some text else extractVenueFromMLA rest

/-! ### Sample index data used by the witnesses -/

def icpsEntry : VEntry :=
  { fullName := "International Conference on Cyber-Physical Systems" }

def sampleTrunc : RankingsData :=
  { conferences := [("icps", icpsEntry)], journals := [], aliases := [] }

def cvprEntry : VEntry :=
  { fullName := "Conference on Computer Vision and Pattern Recognition" }

/-- An index where the conference pass alone would first return the key
`dup`, while the alias maps the same full name to the canonical key `cvpr`. -/
def sampleAlias : RankingsData :=
  { conferences := [("dup", cvprEntry), ("cvpr", cvprEntry)],
    journals := [],
    aliases := [("Conference on Computer Vision and Pattern Recognition", "cvpr")] }

def icseEntry : VEntry :=
  { fullName := "International Conference on Software Engineering" }

/-! ## Theorems -/

/-- Claim C1, counterexample: in the content.js copies of `isFullNameMatch`
the short-target refusal runs BEFORE the equality test, so the non-empty
target "abc", although equal to the detected string, reports no match —
against the claim that only an empty target is refused before the equality
test. -/
theorem C1_counterexample :
    ("abc" : String) ≠ "" ∧ isFullNameMatchV1 "abc" "abc" false = false := by
  decide

/-- Claim C1, amended: in the current copy (part_000) equality of the
detected string with a non-empty target reports a match regardless of the
target's length and of the exact-match flag; in the two content.js copies
the length-10 refusal precedes the equality test, so equality reports a
match exactly when the target has at least 10 characters. -/
theorem C1_amended :
    (∀ detected target : String, ∀ em : Bool,
        target ≠ "" → detected = target → isFullNameMatch detected target em = true) ∧
    (∀ detected target : String, ∀ em : Bool,
        detected = target → 10 ≤ target.length → isFullNameMatchV1 detected target em = true) ∧
    (∀ detected target : String, ∀ em : Bool,
        target.length < 10 → isFullNameMatchV1 detected target em = false) := by
  refine ⟨?_, ?_, ?_⟩
  · intro d t em h1 h2
    unfold isFullNameMatch
    rw [if_neg h1, if_pos h2]
  · intro d t em h1 h2
    have hne : ¬(t = "" ∨ t.length < 10) := by
      rintro (rfl | hlt)
      · simp at h2
      · omega
    unfold isFullNameMatchV1
    rw [if_neg hne, if_pos h1]
  · intro d t em h
    unfold isFullNameMatchV1
    rw [if_pos (Or.inr h)]

/-- Claim C1, witness for the amended statement at concrete inputs. -/
theorem C1_witness :
    isFullNameMatch "abc" "abc" true = true ∧
    isFullNameMatchV1 "abcdefghij" "abcdefghij" true = true ∧
    isFullNameMatchV1 "abc" "abc" true = false :=
  ⟨C1_amended.1 "abc" "abc" true (by decide) rfl,
   C1_amended.2.1 "abcdefghij" "abcdefghij" true rfl (by decide),
   C1_amended.2.2 "abc" "abc" true (by decide)⟩

/-- Claim C2: the author-line extractor, run on the spec's rule-chain
example, skips the author segment, strips the trailing year, the
"Proceedings of the " prefix and the "ACM/IEEE 16th " organization-ordinal
prefix, skips the "acm.org" publisher-domain part, and returns exactly
"International Conference on Cyber-Physical". -/
theorem C2_thm :
    extractVenueFromAuthorLine
        "J Smith - Proceedings of the ACM/IEEE 16th International Conference on Cyber-Physical, 2020 - acm.org"
      = some "International Conference on Cyber-Physical" := by
  decide

/-- Claim C3: for a detected string shorter than 25 characters and a
non-empty target with the exact-match flag off, if the two differ and the
detected string does not contain the target, neither copy of
`isFullNameMatch` reports a match — the reverse (truncation-aware)
containment never fires below 25 characters. -/
theorem C3_thm (detected target : String)
    (h1 : detected.length < 25) (h2 : target ≠ "") (h3 : detected ≠ target)
    (h4 : containsSub detected target = false) :
    isFullNameMatch detected target false = false ∧
    isFullNameMatchV1 detected target false = false := by
  constructor
  · unfold isFullNameMatch
    by_cases g : (false = true ∨ target.length < 10)
    · rw [if_neg h2, if_neg h3, if_pos g]
    · rw [if_neg h2, if_neg h3, if_neg g, if_neg (by simp [h4]),
        if_neg (fun h => absurd h.1 (by omega))]
  · unfold isFullNameMatchV1
    by_cases g : (target = "" ∨ target.length < 10)
    · rw [if_pos g]
    · rw [if_neg g, if_neg h3, if_neg (by simp), if_neg (by simp [h4]),
        if_neg (fun h => absurd h.1 (by omega))]

/-- Claim C3, witness: a 24-character detected string that is a true prefix
of the 50-character target still reports no match in either copy. -/
theorem C3_witness :
    isFullNameMatch "international conference"
        "international conference on cyber physical systems" false = false ∧
    isFullNameMatchV1 "international conference"
        "international conference on cyber physical systems" false = false :=
  C3_thm "international conference"
    "international conference on cyber physical systems"
    (by decide) (by decide) (by decide) (by decide)

/-- Claim C4: for an extracted candidate from a truncated source on which
`findRanking` finds nothing, the badge decision accepts a unique prefix
match and falls back to the fetch button whenever the prefix-match list does
not have exactly one element. -/
theorem C4_thm (rd : RankingsData) (v : String)
    (hnone : findRanking rd v = none) :
    (∀ m : MatchInfo, findPrefixMatches rd v = [m] →
        badgeDecision rd (some v) true = BadgeDecision.badge m) ∧
    ((findPrefixMatches rd v).length ≠ 1 →
        badgeDecision rd (some v) true = BadgeDecision.fetchButton) := by
  constructor
  · intro m hm
    simp [badgeDecision, hnone, hm]
  · intro hlen
    rcases hl : findPrefixMatches rd v with - | ⟨m, - | ⟨m2, rest⟩⟩
    · simp [badgeDecision, hnone, hl]
    · rw [hl] at hlen; simp at hlen
    · simp [badgeDecision, hnone, hl]

/-- Claim C4, witness: "International Conference" (24 normalized characters,
so no reverse-containment match) has exactly one prefix match in the sample
index and is auto-accepted. -/
theorem C4_witness :
    findRanking sampleTrunc "International Conference" = none ∧
    badgeDecision sampleTrunc (some "International Conference") true
      = BadgeDecision.badge ⟨"icps", icpsEntry, some VenueType.conference⟩ :=
  ⟨by decide,
   (C4_thm sampleTrunc "International Conference" (by decide)).1
     ⟨"icps", icpsEntry, some VenueType.conference⟩ (by decide)⟩

/-- Claim C5: whenever the normalized candidate is shorter than 15
characters, `findPrefixMatches` returns the empty list, for every index. -/
theorem C5_thm (rd : RankingsData) (t : String)
    (h : (normalizeString t).length < 15) : findPrefixMatches rd t = [] := by
  simp only [findPrefixMatches]
  split_ifs <;> rfl

/-- Claim C5, witness: "International" normalizes to 13 characters and gets
no prefix matches even though the sample index holds a genuine extension of
it. -/
theorem C5_witness :
    (normalizeString "International").length < 15 ∧
    (normalizeString "International").toList.isPrefixOf
      (normalizeString icpsEntry.fullName).toList = true ∧
    findPrefixMatches sampleTrunc "International" = [] :=
  ⟨by decide, by decide, C5_thm sampleTrunc "International" (by decide)⟩

/-- Claim C6: when the alias pass succeeds on a candidate (some sufficiently
long alias full-name-matches and resolves to an existing entry) and some
conference or journal full name would also match, `findRanking` returns the
alias pass's result with its canonical key — the alias pass returns before
the conference and journal passes run. -/
theorem C6_thm (rd : RankingsData) (text : String) (r : MatchInfo)
    (hne : text ≠ "")
    (ha : aliasScan rd.conferences rd.journals (normalizeString text) rd.aliases
        = some r)
    (hb : entryScan (normalizeString text) VenueType.conference rd.conferences ≠ none ∨
          entryScan (normalizeString text) VenueType.journal rd.journals ≠ none) :
    findRanking rd text = some r := by
  unfold findRanking
  rw [if_neg hne]
  simp only [ha]

/-- Claim C6, witness: the alias and the first conference entry both match
the candidate; the result is the alias's canonical key "cvpr", not the
conference pass's first hit "dup". -/
theorem C6_witness :
    findRanking sampleAlias "Conference on Computer Vision and Pattern Recognition"
      = some ⟨"cvpr", cvprEntry, some VenueType.conference⟩ :=
  C6_thm sampleAlias "Conference on Computer Vision and Pattern Recognition"
    ⟨"cvpr", cvprEntry, some VenueType.conference⟩
    (by decide) (by decide) (Or.inl (by decide))

/-- Claim C7: with the empty index produced by the loader's catch branch for
an absent or malformed payload, `findRanking` returns `none` on every
candidate (and, being a total function, never throws). -/
theorem C7_thm (text : String) : findRanking emptyRankingsData text = none := by
  unfold findRanking
  split_ifs with g
  · rfl
  · rfl

/-- Claim C9, counterexample: the older copy's `extractVenueFromMLA` uses
the threshold 2, so an italic whose trimmed text has exactly 3 characters IS
returned as a venue, against the claim that it never is. -/
theorem C9_counterexample :
    (String.mk (trimL "abc".toList)).length = 3 ∧
    extractVenueFromMLA ["abc"] = some "abc" := by
  decide

/-- Claim C9, amended: the current fetch-click extractor (part_000) returns
the trimmed italic text exactly when it is longer than 3 characters; the
older content.js `extractVenueFromMLA` returns it already when longer than
2 characters, so a 3-character trimmed italic is returned there. -/
theorem C9_amended (t : String) :
    (3 < (String.mk (trimL t.toList)).length →
        selectVenueFromItalics [t] = some (String.mk (trimL t.toList))) ∧
    ((String.mk (trimL t.toList)).length ≤ 3 →
        selectVenueFromItalics [t] = none) ∧
    (2 < (String.mk (trimL t.toList)).length →
        extractVenueFromMLA [t] = some (String.mk (trimL t.toList))) := by
  refine ⟨?_, ?_, ?_⟩
  · intro h
    unfold selectVenueFromItalics
    rw [if_pos h]
  · intro h
    unfold selectVenueFromItalics
    rw [if_neg (by omega)]
    rfl
  · intro h
    unfold extractVenueFromMLA
    rw [if_pos h]

/-- Claim C9, witness: on the 3-character fragment the two extractors
disagree, and on a 4-character fragment the current one returns it. -/
theorem C9_witness :
    selectVenueFromItalics ["abc"] = none ∧
    extractVenueFromMLA ["abc"] = some "abc" ∧
    selectVenueFromItalics ["abcd"] = some "abcd" :=
  ⟨(C9_amended "abc").2.1 (by decide),
   (C9_amended "abc").2.2 (by decide),
   (C9_amended "abcd").1 (by decide)⟩

/-- An alias whose canonical key resolves in neither mapping is invisible to
the alias pass of `findRanking`: the scan result is the same with or without
it, wherever it sits in the alias list. -/
theorem aliasScan_skips_dangling (confs jours : List (String × VEntry))
    (n al c : String) (post : List (String × String))
    (hc : List.lookup c confs = none) (hj : List.lookup c jours = none) :
    ∀ pre : List (String × String),
      aliasScan confs jours n (pre ++ (al, c) :: post)
        = aliasScan confs jours n (pre ++ post) := by
  intro pre
  induction pre with
  | nil =>
    simp only [List.nil_append, aliasScan]
    split_ifs with g
    · simp [hc, hj]
    · rfl
  | cons p pre ih =>
    obtain ⟨a0, c0⟩ := p
    simp only [List.cons_append, aliasScan]
    split_ifs with g
    · cases h1 : List.lookup c0 confs <;> cases h2 : List.lookup c0 jours <;>
        simp [h1, h2, ih]
    · exact ih

/-- An alias whose canonical key resolves in neither mapping contributes
nothing to the alias section of `findPrefixMatches`, for every state of the
seen-keys set. -/
theorem aliasScanPm_skips_dangling (confs jours : List (String × VEntry))
    (n al c : String) (post : List (String × String))
    (hc : List.lookup c confs = none) (hj : List.lookup c jours = none) :
    ∀ (pre : List (String × String)) (seen : List String),
      aliasScanPm confs jours n seen (pre ++ (al, c) :: post)
        = aliasScanPm confs jours n seen (pre ++ post) := by
  intro pre
  induction pre with
  | nil =>
    intro seen
    simp only [List.nil_append, aliasScanPm]
    split_ifs with g
    · simp [hc, hj]
    · rfl
  | cons p pre ih =>
    intro seen
    obtain ⟨a0, c0⟩ := p
    simp only [List.cons_append, aliasScanPm]
    split_ifs with g
    · cases h1 : List.lookup c0 confs <;> cases h2 : List.lookup c0 jours <;>
        simp [h1, h2, ih]
    · exact ih seen

/-- Claim C10: a dangling alias — one whose canonical key is in neither the
conferences nor the journals mapping — is skipped silently by both `resolve`
(`findRanking`) and `findPrefixMatches`: removing it from the alias list
changes neither result, so it never yields a match, and the scans continue
with the remaining aliases and the conference and journal passes. -/
theorem C10_thm (confs jours : List (String × VEntry))
    (pre post : List (String × String)) (al c text : String)
    (hc : List.lookup c confs = none) (hj : List.lookup c jours = none) :
    findRanking ⟨confs, jours, pre ++ (al, c) :: post⟩ text
      = findRanking ⟨confs, jours, pre ++ post⟩ text ∧
    findPrefixMatches ⟨confs, jours, pre ++ (al, c) :: post⟩ text
      = findPrefixMatches ⟨confs, jours, pre ++ post⟩ text := by
  constructor
  · simp only [findRanking]
    split_ifs with g
    · rfl
    · rw [aliasScan_skips_dangling confs jours (normalizeString text) al c post hc hj pre]
  · simp only [findPrefixMatches]
    split_ifs with g1 g2
    · rfl
    · rfl
    · rw [aliasScanPm_skips_dangling confs jours (normalizeString text) al c post hc hj pre]

/-- Claim C10, witness: a dangling alias that even full-name-matches the
candidate is skipped, the conference pass still runs, and the result equals
the one for the index without the dangling alias. -/
theorem C10_witness :
    findRanking ⟨[("icse", icseEntry)], [],
        [("International Conference on Software Engineering", "ghost")]⟩
        "International Conference on Software Engineering"
      = findRanking ⟨[("icse", icseEntry)], [], []⟩
        "International Conference on Software Engineering" ∧
    findPrefixMatches ⟨[("icse", icseEntry)], [],
        [("International Conference on Software Engineering", "ghost")]⟩
        "International Conference on Software Engineering"
      = findPrefixMatches ⟨[("icse", icseEntry)], [], []⟩
        "International Conference on Software Engineering" :=
  C10_thm [("icse", icseEntry)] [] [] []
    "International Conference on Software Engineering" "ghost"
    "International Conference on Software Engineering" (by decide) (by decide)

/-! ### Structural lemmas about the normalization pipeline, for claim C8 -/

/-- No two adjacent characters of the list are both whitespace. -/
def noAdjWs : List Char → Bool
  | [] => true
  | c :: cs =>
    match cs with
    | [] => true
    | d :: _ => !(isJsWs c && isJsWs d) && noAdjWs cs

/-- The first character, when present, is not whitespace. -/
def firstNotWs : List Char → Bool
  | [] => true
  | c :: _ => !isJsWs c

/-- The last character, when present, is not whitespace. -/
def lastNotWs : List Char → Bool
  | [] => true
  | c :: cs =>
    match cs with
    | [] => !isJsWs c
    | _ :: _ => lastNotWs cs

theorem goodC_of_keep_not_ws {c : Char} (h : keepC c = true)
    (hw : isJsWs c = false) : goodC c = true := by
  simp only [keepC, hw, Bool.or_false, Bool.or_eq_true] at h
  rcases h with h1 | h1 <;> simp [goodC, h1]

theorem keep_of_good {c : Char} (h : goodC c = true) : keepC c = true := by
  simp only [goodC, Bool.or_eq_true, decide_eq_true_eq] at h
  rcases h with (h1 | h1) | h1
  · simp [keepC, h1]
  · simp [keepC, h1]
  · subst h1; decide

theorem eq_space_of_good_ws {c : Char} (hg : goodC c = true)
    (hw : isJsWs c = true) : c = ' ' := by
  have hc : c = Char.ofNat c.toNat := (Char.ofNat_toNat c).symm
  simp only [goodC, isLowerAZ, isDigitC, Bool.or_eq_true, Bool.and_eq_true,
    decide_eq_true_eq] at hg
  simp only [isJsWs, Bool.or_eq_true, Bool.and_eq_true, decide_eq_true_eq] at hw
  have h32 : c.toNat = 32 := by
    rcases hg with (⟨h1, h2⟩ | ⟨h1, h2⟩) | h
    · omega
    · omega
    · subst h; decide
  rw [hc, h32]

theorem jsLower_good {c : Char} (hg : goodC c = true) : jsLower c = c := by
  have hu : isUpperAZ c = false := by
    rw [Bool.eq_false_iff]
    intro h
    simp only [isUpperAZ, Bool.and_eq_true, decide_eq_true_eq] at h
    simp only [goodC, isLowerAZ, isDigitC, Bool.or_eq_true, Bool.and_eq_true,
      decide_eq_true_eq] at hg
    rcases hg with (⟨h1, h2⟩ | ⟨h1, h2⟩) | h3
    · omega
    · omega
    · subst h3; exact absurd h (by decide)
  simp [jsLower, hu]

theorem collapse_cons_not_ws {d : Char} (rest : List Char)
    (h : isJsWs d = false) : collapseWs (d :: rest) = d :: collapseWs rest := by
  cases rest with
  | nil => simp [collapseWs, h]
  | cons e tail => simp [collapseWs, h]

theorem collapse_mem {l : List Char} {c : Char} (h : c ∈ collapseWs l) :
    c = ' ' ∨ (c ∈ l ∧ isJsWs c = false) := by
  induction l with
  | nil => simp [collapseWs] at h
  | cons d cs ih =>
    cases cs with
    | nil =>
      by_cases hw : isJsWs d = true
      · simp [collapseWs, hw] at h
        exact Or.inl h
      · replace hw : isJsWs d = false := by simpa using hw
        simp [collapseWs, hw] at h
        subst h
        exact Or.inr ⟨by simp, hw⟩
    | cons e tail =>
      by_cases hp : (isJsWs d && isJsWs e) = true
      · rw [show collapseWs (d :: e :: tail) = collapseWs (e :: tail) by
            simp [collapseWs, hp]] at h
        rcases ih h with h1 | ⟨h2, h3⟩
        · exact Or.inl h1
        · exact Or.inr ⟨List.mem_cons_of_mem _ h2, h3⟩
      · replace hp : (isJsWs d && isJsWs e) = false := by simpa using hp
        rw [show collapseWs (d :: e :: tail)
              = (if isJsWs d then ' ' else d) :: collapseWs (e :: tail) by
            simp [collapseWs, hp]] at h
        rcases List.mem_cons.mp h with h1 | h1
        · by_cases hd : isJsWs d = true
          · rw [if_pos hd] at h1; exact Or.inl h1
          · replace hd : isJsWs d = false := by simpa using hd
            rw [if_neg (by simp [hd])] at h1
            subst h1
            exact Or.inr ⟨by simp, hd⟩
        · rcases ih h1 with h2 | ⟨h2, h3⟩
          · exact Or.inl h2
          · exact Or.inr ⟨List.mem_cons_of_mem _ h2, h3⟩

theorem noAdjWs_cons_of {x : Char} {l : List Char}
    (h1 : ∀ d, l.head? = some d → (isJsWs x && isJsWs d) = false)
    (h2 : noAdjWs l = true) : noAdjWs (x :: l) = true := by
  cases l with
  | nil => rfl
  | cons d tail =>
    simp only [noAdjWs, Bool.and_eq_true, Bool.not_eq_true']
    exact ⟨h1 d rfl, h2⟩

theorem noAdjWs_tail {c : Char} {l : List Char}
    (h : noAdjWs (c :: l) = true) : noAdjWs l = true := by
  cases l with
  | nil => rfl
  | cons d tail =>
    simp only [noAdjWs, Bool.and_eq_true] at h
    exact h.2

theorem collapse_noAdj (l : List Char) : noAdjWs (collapseWs l) = true := by
  induction l with
  | nil => rfl
  | cons d cs ih =>
    cases cs with
    | nil => by_cases hw : isJsWs d = true <;> simp [collapseWs, hw, noAdjWs]
    | cons e tail =>
      by_cases hp : (isJsWs d && isJsWs e) = true
      · rw [show collapseWs (d :: e :: tail) = collapseWs (e :: tail) by
            simp [collapseWs, hp]]
        exact ih
      · replace hp : (isJsWs d && isJsWs e) = false := by simpa using hp
        rw [show collapseWs (d :: e :: tail)
              = (if isJsWs d then ' ' else d) :: collapseWs (e :: tail) by
            simp [collapseWs, hp]]
        apply noAdjWs_cons_of _ ih
        intro x hx
        by_cases hd : isJsWs d = true
        · have he : isJsWs e = false := by
            rcases Bool.and_eq_false_iff.mp hp with h | h
            · exact absurd hd (by simp [h])
            · exact h
          rw [if_pos hd]
          rw [collapse_cons_not_ws tail he] at hx
          simp only [List.head?] at hx
          injection hx with hx
          subst hx
          simp [he]
        · replace hd : isJsWs d = false := by simpa using hd
          rw [if_neg (by simp [hd])]
          simp [hd]

theorem collapse_fix {l : List Char}
    (hg : ∀ c ∈ l, isJsWs c = true → c = ' ')
    (hn : noAdjWs l = true) : collapseWs l = l := by
  induction l with
  | nil => rfl
  | cons d cs ih =>
    cases cs with
    | nil =>
      by_cases hw : isJsWs d = true
      · have := hg d (by simp) hw
        simp [collapseWs, hw, this]
      · replace hw : isJsWs d = false := by simpa using hw
        simp [collapseWs, hw]
    | cons e tail =>
      have hpair : (isJsWs d && isJsWs e) = false := by
        have h0 : noAdjWs (d :: e :: tail) = true := hn
        simp only [noAdjWs, Bool.and_eq_true, Bool.not_eq_true'] at h0
        exact h0.1
      rw [show collapseWs (d :: e :: tail)
            = (if isJsWs d then ' ' else d) :: collapseWs (e :: tail) by
          simp [collapseWs, hpair]]
      have hrest : collapseWs (e :: tail) = e :: tail :=
        ih (fun c hc hw => hg c (List.mem_cons_of_mem _ hc) hw) (noAdjWs_tail hn)
      rw [hrest]
      by_cases hd : isJsWs d = true
      · rw [if_pos hd, hg d (by simp) hd]
      · rw [if_neg (by simpa using hd)]

theorem mem_of_mem_dropWhile {p : Char → Bool} {l : List Char} {c : Char}
    (h : c ∈ l.dropWhile p) : c ∈ l := by
  induction l with
  | nil => simp at h
  | cons d cs ih =>
    by_cases hp : p d = true
    · rw [List.dropWhile_cons_of_pos hp] at h
      exact List.mem_cons_of_mem _ (ih h)
    · rw [List.dropWhile_cons_of_neg (by simp [hp])] at h
      exact h

theorem noAdjWs_dropWhile {p : Char → Bool} {l : List Char}
    (h : noAdjWs l = true) : noAdjWs (l.dropWhile p) = true := by
  induction l with
  | nil => rfl
  | cons d cs ih =>
    by_cases hp : p d = true
    · rw [List.dropWhile_cons_of_pos hp]
      exact ih (noAdjWs_tail h)
    · rw [List.dropWhile_cons_of_neg (by simp [hp])]
      exact h

theorem firstNotWs_dropWhile (l : List Char) :
    firstNotWs (l.dropWhile isJsWs) = true := by
  induction l with
  | nil => rfl
  | cons d cs ih =>
    by_cases hp : isJsWs d = true
    · rw [List.dropWhile_cons_of_pos hp]
      exact ih
    · rw [List.dropWhile_cons_of_neg (by simp [hp])]
      simpa [firstNotWs] using hp

theorem dropWhile_ws_fix {l : List Char} (h : firstNotWs l = true) :
    l.dropWhile isJsWs = l := by
  cases l with
  | nil => rfl
  | cons d cs =>
    have hd : isJsWs d = false := by simpa [firstNotWs] using h
    rw [List.dropWhile_cons_of_neg (by simp [hd])]

theorem dropTrail_mem {l : List Char} {c : Char} (h : c ∈ dropTrailWs l) :
    c ∈ l := by
  induction l with
  | nil => simp [dropTrailWs] at h
  | cons d cs ih =>
    simp only [dropTrailWs] at h
    cases htl : dropTrailWs cs with
    | nil =>
      rw [htl] at h
      by_cases hw : isJsWs d = true
      · simp [hw] at h
      · replace hw : isJsWs d = false := by simpa using hw
        simp [hw] at h
        subst h
        simp
    | cons x xs =>
      rw [htl] at h
      rcases List.mem_cons.mp h with h1 | h1
      · subst h1; simp
      · exact List.mem_cons_of_mem _ (ih (htl ▸ h1))

theorem dropTrail_head (d : Char) (ds : List Char) :
    dropTrailWs (d :: ds) = [] ∨ ∃ r, dropTrailWs (d :: ds) = d :: r := by
  simp only [dropTrailWs]
  cases dropTrailWs ds with
  | nil =>
    by_cases hw : isJsWs d = true
    · left; simp [hw]
    · right; exact ⟨[], by simp [hw]⟩
  | cons x xs => right; exact ⟨x :: xs, rfl⟩

theorem noAdjWs_dropTrail {l : List Char} (h : noAdjWs l = true) :
    noAdjWs (dropTrailWs l) = true := by
  induction l with
  | nil => rfl
  | cons d cs ih =>
    simp only [dropTrailWs]
    cases htl : dropTrailWs cs with
    | nil => by_cases hw : isJsWs d = true <;> simp [hw, noAdjWs]
    | cons x xs =>
      have hx : noAdjWs (x :: xs) = true := htl ▸ ih (noAdjWs_tail h)
      cases cs with
      | nil => simp [dropTrailWs] at htl
      | cons e es =>
        rcases dropTrail_head e es with h0 | ⟨r, h0⟩
        · rw [h0] at htl; cases htl
        · rw [h0] at htl
          have hxe : e = x := by injection htl
          apply noAdjWs_cons_of _ hx
          intro y hy
          simp only [List.head?] at hy
          injection hy with hy
          subst hy
          subst hxe
          have h1 : noAdjWs (d :: e :: es) = true := h
          simp only [noAdjWs, Bool.and_eq_true, Bool.not_eq_true'] at h1
          exact h1.1

theorem lastNotWs_dropTrail (l : List Char) :
    lastNotWs (dropTrailWs l) = true := by
  induction l with
  | nil => rfl
  | cons d cs ih =>
    simp only [dropTrailWs]
    cases htl : dropTrailWs cs with
    | nil =>
      by_cases hw : isJsWs d = true <;> simp [hw, lastNotWs]
    | cons x xs =>
      have := htl ▸ ih
      simpa [lastNotWs] using this

theorem dropTrail_fix {l : List Char} (h : lastNotWs l = true) :
    dropTrailWs l = l := by
  induction l with
  | nil => rfl
  | cons d cs ih =>
    cases cs with
    | nil =>
      have hd : isJsWs d = false := by simpa [lastNotWs] using h
      simp [dropTrailWs, hd]
    | cons e es =>
      have h2 : lastNotWs (e :: es) = true := by simpa [lastNotWs] using h
      have h3 := ih h2
      show (match dropTrailWs (e :: es) with
            | [] => if isJsWs d = true then [] else [d]
            | r => d :: r) = d :: e :: es
      rw [h3]

theorem firstNotWs_dropTrail {l : List Char} (h : firstNotWs l = true) :
    firstNotWs (dropTrailWs l) = true := by
  cases l with
  | nil => rfl
  | cons d cs =>
    simp only [dropTrailWs]
    cases dropTrailWs cs with
    | nil => by_cases hw : isJsWs d = true <;> simp [hw, firstNotWs]
    | cons x xs => simpa [firstNotWs] using h

theorem trim_mem {l : List Char} {c : Char} (h : c ∈ trimL l) : c ∈ l :=
  mem_of_mem_dropWhile (dropTrail_mem h)

theorem trim_noAdj {l : List Char} (h : noAdjWs l = true) :
    noAdjWs (trimL l) = true :=
  noAdjWs_dropTrail (noAdjWs_dropWhile h)

theorem trim_first (l : List Char) : firstNotWs (trimL l) = true :=
  firstNotWs_dropTrail (firstNotWs_dropWhile l)

theorem trim_last (l : List Char) : lastNotWs (trimL l) = true :=
  lastNotWs_dropTrail _

theorem trim_fix {l : List Char} (h1 : firstNotWs l = true)
    (h2 : lastNotWs l = true) : trimL l = l := by
  unfold trimL
  rw [dropWhile_ws_fix h1, dropTrail_fix h2]

theorem map_jsLower_fix {l : List Char} (h : ∀ c ∈ l, goodC c = true) :
    l.map jsLower = l := by
  induction l with
  | nil => rfl
  | cons d cs ih =>
    simp only [List.map_cons]
    rw [jsLower_good (h d (by simp)), ih (fun c hc => h c (by simp [hc]))]

theorem filter_keep_fix {l : List Char} (h : ∀ c ∈ l, goodC c = true) :
    l.filter keepC = l :=
  List.filter_eq_self.mpr (fun c hc => keep_of_good (h c hc))

theorem normalized_good (l : List Char) :
    ∀ c ∈ trimL (collapseWs ((l.map jsLower).filter keepC)), goodC c = true := by
  intro c hc
  have h1 := trim_mem hc
  rcases collapse_mem h1 with h2 | ⟨h2, h3⟩
  · subst h2; decide
  · exact goodC_of_keep_not_ws (List.mem_filter.mp h2).2 h3

/-- Claim C8: `normalizeString` is a total function on all strings and is
idempotent, and its output contains only lowercase ASCII letters, digits and
single spaces (no two adjacent whitespace characters), with no leading or
trailing whitespace. -/
theorem C8_thm (s : String) :
    normalizeString (normalizeString s) = normalizeString s ∧
    (normalizeString s).toList.all goodC = true ∧
    noAdjWs (normalizeString s).toList = true ∧
    firstNotWs (normalizeString s).toList = true ∧
    lastNotWs (normalizeString s).toList = true := by
  have hgood : ∀ c ∈ trimL (collapseWs ((s.toList.map jsLower).filter keepC)),
      goodC c = true := normalized_good s.toList
  have hnoadj : noAdjWs (trimL (collapseWs ((s.toList.map jsLower).filter keepC))) = true :=
    trim_noAdj (collapse_noAdj _)
  have hfst := trim_first (collapseWs ((s.toList.map jsLower).filter keepC))
  have hlst := trim_last (collapseWs ((s.toList.map jsLower).filter keepC))
  refine ⟨?_, ?_, hnoadj, hfst, hlst⟩
  · show String.mk (trimL (collapseWs
        ((( trimL (collapseWs ((s.toList.map jsLower).filter keepC))).map jsLower).filter keepC)))
      = String.mk (trimL (collapseWs ((s.toList.map jsLower).filter keepC)))
    rw [map_jsLower_fix hgood, filter_keep_fix hgood,
      collapse_fix (fun c hc hw => eq_space_of_good_ws (hgood c hc) hw) hnoadj,
      trim_fix hfst hlst]
  · exact List.all_eq_true.mpr hgood

end GSO
